import Mathlib

/-!
# Sparse triplet encoding and transpose (`sparse.c`, `sparse_matrix.c`)

A shallow embedding of `convertToSparse`, `transposeSparse` and `generateRandomMatrix`
from `sparse.c` (namespace `Sparse`), and of the triplet construction and the transpose
loop of `main` in `sparse_matrix.c` (namespace `SparseMatrixC`).

Modelling conventions

* `float` is an IEEE-754 binary32 value held as its 32-bit pattern (`F32`).  The only
  float operations in the code are the comparison `x != 0.0f`, plain copies, and the
  quotient `(float)n / 10.0f` of `generateRandomMatrix`.
* `int` is `Int`.  The counters of the source (`i`, `j`, `k`, `u`) only ever count cells
  of the matrix, so they are not reduced modulo `2^32`: signed overflow has no defined
  behaviour in C and the source relies on it not happening.
* `float** matrix` is the read function `Int → Int → F32` (`matrix i j` is `matrix[i][j]`).
* A heap block of `struct SparseMatrix` is a `List SparseMatrix`; `malloc` and `realloc`
  are assumed to succeed, and cells they leave uninitialised hold `default`.
* A read `sparse[i]` outside the block has no defined behaviour: the model returns `none`.
* `rand()` is a stream `Nat → Nat`: its `n`-th value is the result of the `n`-th call.
* `sparse_matrix.c` uses `triplet` and `transpose` as `int **` tables obtained from
  `allocate`; a table is the list of its rows, and an access outside it is a fault.
-/

namespace Sparse

/-- IEEE-754 binary32 value (`float`), held as its 32-bit pattern. -/
structure F32 where
  bits : Fin 4294967296
deriving DecidableEq

instance : Inhabited F32 := ⟨⟨0⟩⟩

/-- The comparison `x != 0.0f`: false exactly for `+0.0` and `-0.0` (all bits below the
sign bit clear); a NaN compares unequal to everything, so it is true for NaN. -/
def F32.ne0 (x : F32) : Bool := x.bits.val % 2147483648 != 0

/-- Triplet record `struct SparseMatrix { int row; int col; float value; }`. -/
structure SparseMatrix where
  row : Int
  col : Int
  value : F32
deriving DecidableEq

instance : Inhabited SparseMatrix := ⟨⟨0, 0, default⟩⟩

/-- Loop `for (int i = 0; i < n; i++) body(i)` as a state transformer: the body runs for
`i = 0, 1, …, n - 1` in that order, and not at all when `n ≤ 0`. -/
def forLoop {σ : Type} (n : Int) (body : Int → σ → σ) (s : σ) : σ :=
  (List.range n.toNat).foldl (fun s (i : Nat) => body (i : Int) s) s

/-- Loop `for (int i = 0; i < n; i++) body(i)` whose body may fault. -/
def forLoopM {σ : Type} (n : Int) (body : Int → σ → Option σ) (s : σ) : Option σ :=
  (List.range n.toNat).foldlM (fun s (i : Nat) => body (i : Int) s) s

/-- Block `malloc(n * sizeof(struct SparseMatrix))`: `n` uninitialised cells
(none when `n` is not positive). -/
def malloc (n : Int) : List SparseMatrix := List.replicate n.toNat default

/-- Block `realloc(buf, n * sizeof(struct SparseMatrix))`: the first `n` cells of `buf`
are kept, and cells beyond the old size are uninitialised. -/
def realloc (buf : List SparseMatrix) (n : Int) : List SparseMatrix :=
  buf.take n.toNat ++ List.replicate (n.toNat - buf.length) default

/-- Write `buf[k].row = v`. -/
def setRow (buf : List SparseMatrix) (k v : Int) : List SparseMatrix :=
  buf.modify (fun t => { t with row := v }) k.toNat

/-- Write `buf[k].col = v`. -/
def setCol (buf : List SparseMatrix) (k v : Int) : List SparseMatrix :=
  buf.modify (fun t => { t with col := v }) k.toNat

/-- Write `buf[k].value = v`. -/
def setValue (buf : List SparseMatrix) (k : Int) (v : F32) : List SparseMatrix :=
  buf.modify (fun t => { t with value := v }) k.toNat

/-- Read `buf[i]`; `none` outside the block. -/
def readAt (buf : List SparseMatrix) (i : Int) : Option SparseMatrix :=
  if 0 ≤ i then buf[i.toNat]? else none

/-- Function `convertToSparse(matrix, rows, cols, &sparse)` of `sparse.c`: the argument
`sparse` is the block `*sparse` on entry (`[]` for `NULL`); the result is the returned
count `k` together with the block `*sparse` on exit. -/
def convertToSparse (matrix : Int → Int → F32) (rows cols : Int)
    (sparse : List SparseMatrix) : Int × List SparseMatrix :=
  forLoop rows (fun i s =>
    forLoop cols (fun j s =>
      if (matrix i j).ne0 then
        let k := s.1
        let sp := realloc s.2 (k + 1)
        let sp := setRow sp k i
        let sp := setCol sp k j
        let sp := setValue sp k (matrix i j)
        (k + 1, sp)
      else s) s) (0, sparse)

/-- The triplet sequence a call of `convertToSparse` hands back: entries `0 … k - 1` of
the block, where `k` is the returned count (this is what `main` prints and transposes). -/
def tripletsOf (r : Int × List SparseMatrix) : List SparseMatrix :=
  r.2.take r.1.toNat

/-- Function `transposeSparse(sparse, count, &transpose)` of `sparse.c`: the result is the
block `*transpose` on exit, or `none` when a read `sparse[i]` falls outside `sparse`. -/
def transposeSparse (sparse : List SparseMatrix) (count : Int) :
    Option (List SparseMatrix) :=
  forLoopM count (fun i tr => do
    let s ← readAt sparse i
    let tr := setRow tr i s.col
    let tr := setCol tr i s.row
    let tr := setValue tr i s.value
    pure tr) (malloc count)

/-- Dense matrix given by its rows (cells outside the rows read as `+0.0`). -/
def ofRows (rs : List (List F32)) : Int → Int → F32 :=
  fun i j => (rs.getD i.toNat []).getD j.toNat default

/-- The float `3.0f`. -/
def f3 : F32 := ⟨⟨0x40400000, by decide⟩⟩

/-- The float `5.0f`. -/
def f5 : F32 := ⟨⟨0x40A00000, by decide⟩⟩

/-- The float `+0.0f`. -/
def f0 : F32 := ⟨⟨0, by decide⟩⟩

/-- Non-zero cells of row `i`, left to right, as triplets. -/
def rowCells (matrix : Int → Int → F32) (i cols : Int) : List SparseMatrix :=
  (List.range cols.toNat).filterMap
    (fun (j : Nat) => if (matrix i j).ne0 then some ⟨i, j, matrix i j⟩ else none)

/-- Non-zero cells of the `rows × cols` block in row-major order, as triplets. -/
def cells (matrix : Int → Int → F32) (rows cols : Int) : List SparseMatrix :=
  (List.range rows.toNat).flatMap (fun (i : Nat) => rowCells matrix i cols)

/-- State of `convertToSparse` once the triplets `acc` have been stored: the counter is
their number and the block holds exactly them (the entry block while none is stored). -/
def stored (sparse acc : List SparseMatrix) : Int × List SparseMatrix :=
  (acc.length, if acc = [] then sparse else acc)

/-- Row/column swap of one triplet. -/
def swapRC (t : SparseMatrix) : SparseMatrix := ⟨t.col, t.row, t.value⟩

/-- Row-major (lexicographic) order on triplet coordinates. -/
def rowMajorLt (a b : SparseMatrix) : Prop :=
  a.row < b.row ∨ (a.row = b.row ∧ a.col < b.col)

/-- Cells `(i, j)` of the `rows × cols` block that compare unequal to zero. -/
def nonZeroCells (matrix : Int → Int → F32) (rows cols : Int) : Finset (Int × Int) :=
  (Finset.Ico 0 rows ×ˢ Finset.Ico 0 cols).filter (fun p => (matrix p.1 p.2).ne0 = true)

/-- Cells `(i, j)` of the `rows × cols` block that compare equal to zero. -/
def zeroCells (matrix : Int → Int → F32) (rows cols : Int) : Finset (Int × Int) :=
  (Finset.Ico 0 rows ×ˢ Finset.Ico 0 cols).filter (fun p => (matrix p.1 p.2).ne0 = false)

/-- Quotient `(float)n / 10.0f` for `0 ≤ n < 1000`, rounded to nearest (ties to even):
`+0.0` for `n = 0`; otherwise, with `e` the binary exponent of `n / 10` and `s = e + 4`,
the 24-bit significand is `n * 2^(27 - s) / 10` rounded, and the biased exponent is
`s + 123`. -/
def F32.divTen (n : Nat) : F32 :=
  if n = 0 then ⟨0⟩
  else
    let s := ((List.range 11).filter (fun k => 10 * 2 ^ k ≤ 16 * n)).length - 1
    let q := n * 2 ^ (27 - s) / 10
    let r := n * 2 ^ (27 - s) % 10
    let m := if 5 < r ∨ (r = 5 ∧ q % 2 = 1) then q + 1 else q
    ⟨⟨((s + 122) * 8388608 + m) % 4294967296, Nat.mod_lt _ (by decide)⟩⟩

/-- Write `matrix[i][j] = v`. -/
def setCell (matrix : Int → Int → F32) (i j : Int) (v : F32) : Int → Int → F32 :=
  fun a b => if a = i ∧ b = j then v else matrix a b

/-- Loop `while (matrix[randRow][randCol] != 0.0f) { randRow = rand() % rows;
randCol = rand() % cols; }` of `generateRandomMatrix`, run for at most `fuel` iterations;
`n` is the number of `rand()` calls made so far.  The result is `none` when the fuel does
not suffice. -/
def pickZeroCell (rand : Nat → Nat) (matrix : Int → Int → F32) (rows cols : Int) :
    Nat → Int × Int × Nat → Option (Int × Int × Nat)
  | 0, (randRow, randCol, n) =>
    if (matrix randRow randCol).ne0 then none else some (randRow, randCol, n)
  | fuel + 1, (randRow, randCol, n) =>
    if (matrix randRow randCol).ne0 then
      pickZeroCell rand matrix rows cols fuel
        (Int.tmod (rand n) rows, Int.tmod (rand (n + 1)) cols, n + 2)
    else some (randRow, randCol, n)

/-- Function `generateRandomMatrix(matrix, rows, cols)` of `sparse.c`, for the stream
`rand` of `rand()` results that `srand(time(0))` selects; each `while` loop may run for at
most `fuel` iterations.  The result is the matrix on exit.  `(int)(totalElements * 0.4)`
is `2 * totalElements / 5` truncated: the double product is within `2^-22` of
`0.4 * totalElements` and never below it when that is an integer. -/
def generateRandomMatrix (fuel : Nat) (rand : Nat → Nat) (matrix : Int → Int → F32)
    (rows cols : Int) : Option (Int → Int → F32) :=
  let totalElements := rows * cols
  let nonZeroElements := Int.tdiv (2 * totalElements) 5
  let matrix :=
    forLoop rows (fun i m => forLoop cols (fun j m => setCell m i j f0) m) matrix
  (forLoopM nonZeroElements (fun _ (s : (Int → Int → F32) × Nat) => do
    let m := s.1
    let n := s.2
    let randRow := Int.tmod (rand n) rows
    let randCol := Int.tmod (rand (n + 1)) cols
    let randValue := F32.divTen (rand (n + 2) % 1000)
    let (randRow, randCol, n) ← pickZeroCell rand m rows cols fuel (randRow, randCol, n + 3)
    pure (setCell m randRow randCol randValue, n)) (matrix, 0)).map (fun s => s.1)

/-- Stream of `rand()` results that starts with the values of `l` (and is `0` afterwards). -/
def randOf (l : List Nat) : Nat → Nat := fun n => l.getD n 0

end Sparse

namespace SparseMatrixC

/-- Ways a run can stop without a result: an access outside a table, or a loop that
needs more iterations than it was given. -/
inductive Fault where
  | outOfBounds
  | outOfFuel
deriving DecidableEq

deriving instance DecidableEq for Except

/-- An `int **` table: the list of its rows. -/
abbrev Table := List (List Int)

/-- Function `allocate(mat, r, c)`: a fresh table of `r` rows of `c` cells (the incoming
`mat` is overwritten at once); uninitialised cells hold `0`. -/
def allocate (r c : Int) : Table :=
  List.replicate r.toNat (List.replicate c.toNat 0)

/-- Read `mat[i][j]`; a read outside the table is a fault. -/
def readCell (mat : Table) (i j : Int) : Except Fault Int :=
  if 0 ≤ i ∧ 0 ≤ j then
    match mat[i.toNat]? with
    | some row =>
      match row[j.toNat]? with
      | some v => pure v
      | none => throw Fault.outOfBounds
    | none => throw Fault.outOfBounds
  else throw Fault.outOfBounds

/-- Write `mat[i][j] = v`; a write outside the table is a fault. -/
def writeCell (mat : Table) (i j v : Int) : Except Fault Table :=
  if 0 ≤ i ∧ 0 ≤ j then
    match mat[i.toNat]? with
    | some row =>
      if j.toNat < row.length then pure (mat.set i.toNat (row.set j.toNat v))
      else throw Fault.outOfBounds
    | none => throw Fault.outOfBounds
  else throw Fault.outOfBounds

/-- Loop `while (cond) body`, run for at most `fuel` iterations. -/
def whileLoop {σ : Type} (cond : σ → Except Fault Bool) (body : σ → Except Fault σ) :
    Nat → σ → Except Fault σ
  | 0, s => do
    if (← cond s) then throw Fault.outOfFuel else pure s
  | fuel + 1, s => do
    if (← cond s) then whileLoop cond body fuel (← body s) else pure s

/-- Variables of `main` used by the triplet construction and the transpose loop. -/
structure State where
  i : Int
  j : Int
  k : Int
  u : Int
  triplet : Table
  transpose : Table
deriving DecidableEq

/-- Lines 99–109 of `main`: count the non-zero cells into `u`.  A loop
`for (i = 0; i < r; i++)` is `i = 0; while (i < r) { …; i++; }`, and `r.toNat`
iterations are enough for it. -/
def countNonZero (matrix : Int → Int → Int) (r c : Int) (s : State) :
    Except Fault State :=
  whileLoop (fun s => pure (decide (s.i < r)))
    (fun s => do
      let s ← whileLoop (fun s => pure (decide (s.j < c)))
        (fun s =>
          let s := if matrix s.i s.j ≠ 0 then { s with u := s.u + 1 } else s
          pure { s with j := s.j + 1 })
        c.toNat { s with j := 0 }
      pure { s with i := s.i + 1 })
    r.toNat { s with i := 0 }

/-- Lines 111–127 of `main`: allocate the triplet table, write its header row, then one
row per non-zero cell. -/
def buildTriplet (matrix : Int → Int → Int) (r c : Int) (s : State) :
    Except Fault State := do
  let t := allocate (s.u + 1) 3
  let t ← writeCell t 0 0 r
  let t ← writeCell t 0 1 s.j
  let t ← writeCell t 0 2 s.u
  let s := { s with triplet := t }
  whileLoop (fun s => pure (decide (s.i < r)))
    (fun s => do
      let s ← whileLoop (fun s => pure (decide (s.j < c)))
        (fun s => do
          let s ←
            if matrix s.i s.j ≠ 0 then do
              let t ← writeCell s.triplet s.k 0 s.i
              let t ← writeCell t s.k 1 s.j
              let t ← writeCell t s.k 2 (matrix s.i s.j)
              pure { s with triplet := t, k := s.k + 1 }
            else pure s
          pure { s with j := s.j + 1 })
        c.toNat { s with j := 0 }
      pure { s with i := s.i + 1 })
    r.toNat { s with i := 0 }

/-- Lines 134–145 of `main`: the transpose loop.  The outer bound `triplet[0][1]` is read
again at every test; the loop body never writes `triplet`, so its value on entry bounds
the number of iterations. -/
def transposeLoop (s : State) : Except Fault State := do
  let s := { s with k := 0 }
  let s := { s with transpose := allocate (s.u + 1) 3 }
  let bound ← readCell s.triplet 0 1
  whileLoop (fun s => do pure (decide (s.i < (← readCell s.triplet 0 1))))
    (fun s => do
      let s ← whileLoop (fun s => pure (decide (s.j ≤ s.u)))
        (fun s => do
          let tr ← writeCell s.transpose s.k 0 (← readCell s.triplet s.j 1)
          let tr ← writeCell tr s.k 1 (← readCell s.triplet s.j 0)
          let tr ← writeCell tr s.k 2 (← readCell s.triplet s.j 2)
          pure { s with transpose := tr, k := s.k + 1, j := s.j + 1 })
        s.u.toNat { s with j := 1 }
      pure { s with i := s.i + 1 })
    bound.toNat { s with i := 0 }

/-- Lines 80–127 of `main`, up to the finished triplet table: `r` and `c` are the sizes
read by `scanf`, `matrix` the contents left by `insert`, and `i0`, `j0` the indeterminate
values the uninitialised variables `i`, `j` hold on entry (`k = 1`, `u = 0`). -/
def tripletPhase (r c : Int) (matrix : Int → Int → Int) (i0 j0 : Int) :
    Except Fault State := do
  let s : State := { i := i0, j := j0, k := 1, u := 0, triplet := [], transpose := [] }
  let s ← countNonZero matrix r c s
  buildTriplet matrix r c s

/-- Lines 80–145 of `main`: the triplet construction followed by the transpose loop
(input, display and `free` calls left out). -/
def main (r c : Int) (matrix : Int → Int → Int) (i0 j0 : Int) : Except Fault State := do
  let s ← tripletPhase r c matrix i0 j0
  transposeLoop s

/-- Matrix contents given by rows (cells outside the rows read as `0`). -/
def ofRows (rs : List (List Int)) : Int → Int → Int :=
  fun i j => (rs.getD i.toNat []).getD j.toNat 0

end SparseMatrixC

namespace Sparse

/-! ## Block writes -/

theorem modify_length_append_cons {α : Type} (f : α → α) (l r : List α) (x : α) :
    List.modify f l.length (l ++ x :: r) = l ++ f x :: r := by
  induction l with
  | nil => rfl
  | cons a l ih => simp [ih]

theorem modify_length_append {α : Type} (f : α → α) (l : List α) (x : α) :
    List.modify f l.length (l ++ [x]) = l ++ [f x] :=
  modify_length_append_cons f l [] x

theorem realloc_succ (buf : List SparseMatrix) (n : Nat) (h : n ≤ buf.length) :
    ∃ x, realloc buf ((n : Int) + 1) = buf.take n ++ [x] := by
  have e : ((n : Int) + 1).toNat = n + 1 := by omega
  unfold realloc
  rw [e]
  rcases Nat.lt_or_ge n buf.length with hlt | hge
  · refine ⟨buf[n], ?_⟩
    have : n + 1 - buf.length = 0 := by omega
    rw [this]
    rw [List.take_succ, List.getElem?_eq_getElem hlt]
    simp
  · have hl : buf.length = n := by omega
    refine ⟨default, ?_⟩
    have h1 : n + 1 - buf.length = 1 := by omega
    rw [h1, List.take_of_length_le (by omega), List.take_of_length_le (by omega)]
    rfl

theorem store_spec (buf : List SparseMatrix) (n : Nat) (h : n ≤ buf.length) (i j : Int)
    (v : F32) :
    setValue (setCol (setRow (realloc buf ((n : Int) + 1)) n i) n j) n v
      = buf.take n ++ [⟨i, j, v⟩] := by
  obtain ⟨x, hx⟩ := realloc_succ buf n h
  have hl : (buf.take n).length = n := by simp [h]
  have m : ∀ (f : SparseMatrix → SparseMatrix) (y : SparseMatrix),
      List.modify f n (buf.take n ++ [y]) = buf.take n ++ [f y] := by
    intro f y
    have := modify_length_append f (buf.take n) y
    rwa [hl] at this
  simp only [setValue, setCol, setRow, hx, Int.toNat_ofNat, m]

theorem store_stored (sparse acc : List SparseMatrix) (i j : Int) (v : F32) :
    (((stored sparse acc).1 + 1,
      setValue (setCol (setRow (realloc (stored sparse acc).2 ((stored sparse acc).1 + 1))
        (stored sparse acc).1 i) (stored sparse acc).1 j) (stored sparse acc).1 v) :
          Int × List SparseMatrix)
      = stored sparse (acc ++ [⟨i, j, v⟩]) := by
  unfold stored
  by_cases hacc : acc = []
  · subst hacc
    have := store_spec sparse 0 (Nat.zero_le _) i j v
    simpa using this
  · have := store_spec acc acc.length (Nat.le_refl _) i j v
    simp only [hacc, if_false, List.take_length] at this ⊢
    simp [this]

/-! ## The encoder computes `cells` -/

theorem inner_loop (matrix : Int → Int → F32) (i : Int) (js : List Nat)
    (sparse acc : List SparseMatrix) :
    js.foldl (fun (s : Int × List SparseMatrix) (j : Nat) =>
        if (matrix i j).ne0 then
          (s.1 + 1, setValue (setCol (setRow (realloc s.2 (s.1 + 1)) s.1 i) s.1 j) s.1
            (matrix i j))
        else s) (stored sparse acc)
      = stored sparse (acc ++ js.filterMap
          (fun (j : Nat) => if (matrix i j).ne0 then some ⟨i, j, matrix i j⟩ else none)) := by
  induction js generalizing acc with
  | nil => simp
  | cons j js ih =>
    rw [List.foldl_cons, List.filterMap_cons]
    by_cases h : (matrix i j).ne0 = true
    · simp only [h, if_true]
      rw [store_stored, ih, List.append_assoc]
      rfl
    · simp only [h]
      exact ih acc

theorem outer_loop (matrix : Int → Int → F32) (cols : Int) (is : List Nat)
    (sparse acc : List SparseMatrix) :
    is.foldl (fun (s : Int × List SparseMatrix) (i : Nat) =>
        forLoop cols (fun j s =>
          if (matrix i j).ne0 then
            (s.1 + 1, setValue (setCol (setRow (realloc s.2 (s.1 + 1)) s.1 i) s.1 j) s.1
              (matrix i j))
          else s) s) (stored sparse acc)
      = stored sparse (acc ++ is.flatMap (fun (i : Nat) => rowCells matrix i cols)) := by
  induction is generalizing acc with
  | nil => simp
  | cons i is ih =>
    rw [List.foldl_cons, List.flatMap_cons]
    have hin := inner_loop matrix i (List.range cols.toNat) sparse acc
    unfold forLoop at ih ⊢
    rw [hin, ih, List.append_assoc]
    rfl

theorem convertToSparse_eq (matrix : Int → Int → F32) (rows cols : Int)
    (sparse : List SparseMatrix) :
    convertToSparse matrix rows cols sparse = stored sparse (cells matrix rows cols) := by
  have h := outer_loop matrix cols (List.range rows.toNat) sparse []
  simpa [convertToSparse, forLoop, cells, stored] using h

theorem tripletsOf_stored (sparse acc : List SparseMatrix) :
    tripletsOf (stored sparse acc) = acc := by
  unfold tripletsOf stored
  by_cases h : acc = []
  · subst h; simp
  · simp [h]

theorem tripletsOf_convertToSparse (matrix : Int → Int → F32) (rows cols : Int)
    (sparse : List SparseMatrix) :
    tripletsOf (convertToSparse matrix rows cols sparse) = cells matrix rows cols := by
  rw [convertToSparse_eq, tripletsOf_stored]

/-! ## Properties of `cells` -/

theorem mem_rowCells (matrix : Int → Int → F32) (i cols : Int) (t : SparseMatrix) :
    t ∈ rowCells matrix i cols ↔
      t.row = i ∧ 0 ≤ t.col ∧ t.col < cols ∧ (matrix i t.col).ne0 = true ∧
        t.value = matrix i t.col := by
  unfold rowCells
  rw [List.mem_filterMap]
  constructor
  · rintro ⟨j, hj, h⟩
    rw [List.mem_range] at hj
    by_cases hz : (matrix i j).ne0 = true
    · rw [if_pos hz] at h
      cases h
      exact ⟨rfl, by simp, by simp only; omega, hz, rfl⟩
    · rw [if_neg hz] at h
      cases h
  · rintro ⟨h1, h2, h3, h4, h5⟩
    refine ⟨t.col.toNat, ?_, ?_⟩
    · rw [List.mem_range]; omega
    · have e : ((t.col.toNat : Nat) : Int) = t.col := Int.toNat_of_nonneg h2
      rw [e, if_pos h4]
      cases t
      simp only at h1 h5
      subst h1 h5
      rfl

theorem mem_cells (matrix : Int → Int → F32) (rows cols : Int) (t : SparseMatrix) :
    t ∈ cells matrix rows cols ↔
      0 ≤ t.row ∧ t.row < rows ∧ 0 ≤ t.col ∧ t.col < cols ∧
        (matrix t.row t.col).ne0 = true ∧ t.value = matrix t.row t.col := by
  unfold cells
  rw [List.mem_flatMap]
  constructor
  · rintro ⟨i, hi, h⟩
    rw [List.mem_range] at hi
    rw [mem_rowCells] at h
    obtain ⟨h1, h2, h3, h4, h5⟩ := h
    rw [h1]
    exact ⟨by simp, by omega, h2, h3, h4, h5⟩
  · rintro ⟨h1, h2, h3, h4, h5, h6⟩
    refine ⟨t.row.toNat, ?_, ?_⟩
    · rw [List.mem_range]; omega
    · have e : ((t.row.toNat : Nat) : Int) = t.row := Int.toNat_of_nonneg h1
      rw [mem_rowCells, e]
      exact ⟨rfl, h3, h4, h5, h6⟩

theorem rowCells_pairwise (matrix : Int → Int → F32) (i cols : Int) :
    (rowCells matrix i cols).Pairwise rowMajorLt := by
  unfold rowCells
  rw [List.pairwise_filterMap]
  refine (List.pairwise_lt_range cols.toNat).imp ?_
  intro a b hab x hx y hy
  by_cases ha : (matrix i a).ne0 = true
  · by_cases hb : (matrix i b).ne0 = true
    · rw [if_pos ha] at hx
      rw [if_pos hb] at hy
      cases hx
      cases hy
      exact Or.inr ⟨rfl, by simp only; omega⟩
    · rw [if_neg hb] at hy
      cases hy
  · rw [if_neg ha] at hx
    cases hx

theorem cells_pairwise (matrix : Int → Int → F32) (rows cols : Int) :
    (cells matrix rows cols).Pairwise rowMajorLt := by
  unfold cells
  rw [List.pairwise_flatMap]
  refine ⟨fun i _ => rowCells_pairwise matrix i cols, ?_⟩
  refine (List.pairwise_lt_range rows.toNat).imp ?_
  intro a b hab x hx y hy
  rw [mem_rowCells] at hx hy
  exact Or.inl (by rw [hx.1, hy.1]; omega)

theorem rowMajorLt_ne {a b : SparseMatrix} (h : rowMajorLt a b) : a ≠ b := by
  rintro rfl
  rcases h with h | ⟨_, h⟩ <;> omega

theorem cells_nodup (matrix : Int → Int → F32) (rows cols : Int) :
    (cells matrix rows cols).Nodup :=
  (cells_pairwise matrix rows cols).imp rowMajorLt_ne

theorem cells_toFinset (matrix : Int → Int → F32) (rows cols : Int) :
    (cells matrix rows cols).toFinset =
      (nonZeroCells matrix rows cols).image
        (fun p => (⟨p.1, p.2, matrix p.1 p.2⟩ : SparseMatrix)) := by
  ext t
  rw [List.mem_toFinset, mem_cells, Finset.mem_image]
  unfold nonZeroCells
  constructor
  · rintro ⟨h1, h2, h3, h4, h5, h6⟩
    refine ⟨(t.row, t.col), ?_, ?_⟩
    · simp [h1, h2, h3, h4, h5]
    · cases t
      simp only at h6
      subst h6
      rfl
  · rintro ⟨⟨i, j⟩, hp, rfl⟩
    simp only [Finset.mem_filter, Finset.mem_product, Finset.mem_Ico] at hp
    exact ⟨hp.1.1.1, hp.1.1.2, hp.1.2.1, hp.1.2.2, hp.2, rfl⟩

theorem cells_length (matrix : Int → Int → F32) (rows cols : Int) :
    (cells matrix rows cols).length = (nonZeroCells matrix rows cols).card := by
  rw [← List.toFinset_card_of_nodup (cells_nodup matrix rows cols), cells_toFinset]
  apply Finset.card_image_of_injective
  intro p q h
  simp only [SparseMatrix.mk.injEq] at h
  exact Prod.ext h.1 h.2.1

/-! ## The transposer maps `swapRC` over the sequence -/

theorem transpose_step (sparse : List SparseMatrix) (m : Nat) (hm : m < sparse.length)
    (pre rest : List SparseMatrix) (hpre : pre.length = m) (d : SparseMatrix) :
    (do
      let s ← readAt sparse (m : Int)
      let tr := setRow (pre ++ d :: rest) (m : Int) s.col
      let tr := setCol tr (m : Int) s.row
      let tr := setValue tr (m : Int) s.value
      pure tr : Option (List SparseMatrix))
      = some (pre ++ swapRC sparse[m] :: rest) := by
  have hr : readAt sparse (m : Int) = some sparse[m] := by
    simp [readAt, List.getElem?_eq_getElem hm]
  have mo : ∀ (f : SparseMatrix → SparseMatrix) (y : SparseMatrix),
      List.modify f m (pre ++ y :: rest) = pre ++ f y :: rest := by
    intro f y
    have := modify_length_append_cons f pre rest y
    rwa [hpre] at this
  rw [hr]
  simp only [setRow, setCol, setValue, Int.toNat_ofNat, mo]
  rfl

theorem transpose_prefix (sparse : List SparseMatrix) (n m : Nat) (hn : n ≤ sparse.length)
    (hm : m ≤ n) :
    (List.range m).foldlM (fun (tr : List SparseMatrix) (i : Nat) =>
        (do
          let s ← readAt sparse (i : Int)
          let tr := setRow tr (i : Int) s.col
          let tr := setCol tr (i : Int) s.row
          let tr := setValue tr (i : Int) s.value
          pure tr : Option (List SparseMatrix))) (List.replicate n default)
      = some ((sparse.take m).map swapRC ++ List.replicate (n - m) default) := by
  induction m with
  | zero => simp
  | succ m ih =>
    have hlt : m < sparse.length := by omega
    rw [List.range_succ, List.foldlM_append, ih (by omega)]
    have hrep : List.replicate (n - m) (default : SparseMatrix)
        = default :: List.replicate (n - (m + 1)) default := by
      have : n - m = (n - (m + 1)) + 1 := by omega
      rw [this, List.replicate_succ]
    have hlen : ((sparse.take m).map swapRC).length = m := by
      simp; omega
    rw [hrep]
    simp only [Option.some_bind, Option.bind_eq_bind, List.foldlM_cons, List.foldlM_nil]
    have st := transpose_step sparse m hlt ((sparse.take m).map swapRC)
      (List.replicate (n - (m + 1)) default) hlen default
    simp only [Option.bind_eq_bind, Option.pure_def] at st ⊢
    rw [st]
    have ht : sparse.take (m + 1) = sparse.take m ++ [sparse[m]] := by
      rw [List.take_succ, List.getElem?_eq_getElem hlt]
      rfl
    rw [ht, List.map_append, List.append_assoc]
    rfl

theorem transposeSparse_take (sparse : List SparseMatrix) (n : Nat)
    (hn : n ≤ sparse.length) :
    transposeSparse sparse (n : Int) = some ((sparse.take n).map swapRC) := by
  have h := transpose_prefix sparse n n hn (Nat.le_refl n)
  unfold transposeSparse forLoopM malloc
  simp only [Int.toNat_ofNat]
  rw [h]
  simp

theorem transposeSparse_eq (sparse : List SparseMatrix) :
    transposeSparse sparse (sparse.length : Int) = some (sparse.map swapRC) := by
  rw [transposeSparse_take sparse sparse.length (Nat.le_refl _), List.take_length]

theorem swapRC_swapRC (t : SparseMatrix) : swapRC (swapRC t) = t := rfl

theorem swapRC_injective : Function.Injective swapRC := by
  intro a b h
  rw [← swapRC_swapRC a, ← swapRC_swapRC b, h]

theorem mem_map_swapRC_cells (matrix : Int → Int → F32) (rows cols : Int)
    (t : SparseMatrix) :
    t ∈ (cells matrix rows cols).map swapRC ↔
      t ∈ cells (fun j i => matrix i j) cols rows := by
  rw [List.mem_map, mem_cells]
  constructor
  · rintro ⟨u, hu, rfl⟩
    rw [mem_cells] at hu
    obtain ⟨h1, h2, h3, h4, h5, h6⟩ := hu
    exact ⟨h3, h4, h1, h2, h5, h6⟩
  · rintro ⟨h1, h2, h3, h4, h5, h6⟩
    refine ⟨swapRC t, ?_, swapRC_swapRC t⟩
    rw [mem_cells]
    exact ⟨h3, h4, h1, h2, h5, h6⟩

theorem cells_congr (matrix matrix' : Int → Int → F32) (rows cols : Int)
    (h : ∀ i j, 0 ≤ i → i < rows → 0 ≤ j → j < cols → matrix' i j = matrix i j) :
    cells matrix' rows cols = cells matrix rows cols := by
  unfold cells
  apply List.flatMap_congr
  intro i hi
  rw [List.mem_range] at hi
  unfold rowCells
  apply List.filterMap_congr
  intro j hj
  rw [List.mem_range] at hj
  rw [h i j (by simp) (by omega) (by simp) (by omega)]

theorem cells_eq_nil_of_neg (matrix : Int → Int → F32) (rows cols : Int)
    (h : rows ≤ 0 ∨ cols ≤ 0) : cells matrix rows cols = [] := by
  rw [List.eq_nil_iff_forall_not_mem]
  intro t ht
  rw [mem_cells] at ht
  omega

/-! ## Settled claims -/

/-- C1: the count returned by `convertToSparse`, which is also the length of the triplet
sequence it produces, equals the number of cells `(i, j)` with `0 ≤ i < rows`,
`0 ≤ j < cols` and `matrix[i][j] != 0` (for all `rows` and `cols`, so in particular for
non-negative ones). -/
theorem convertToSparse_count_eq_nonzero_cells (matrix : Int → Int → F32)
    (rows cols : Int) (sparse : List SparseMatrix) :
    (convertToSparse matrix rows cols sparse).1 = ((nonZeroCells matrix rows cols).card : Int)
      ∧ (tripletsOf (convertToSparse matrix rows cols sparse)).length
          = (nonZeroCells matrix rows cols).card := by
  rw [tripletsOf_convertToSparse, convertToSparse_eq, cells_length]
  exact ⟨by simp [stored, cells_length], rfl⟩

/-- C2: every triplet produced by `convertToSparse` has a value that compares unequal to
zero, coordinates inside the `rows × cols` block, and the value stored in the matrix at
those coordinates. -/
theorem convertToSparse_triplet_sound (matrix : Int → Int → F32) (rows cols : Int)
    (sparse : List SparseMatrix) (t : SparseMatrix)
    (ht : t ∈ tripletsOf (convertToSparse matrix rows cols sparse)) :
    t.value.ne0 = true ∧ 0 ≤ t.row ∧ t.row < rows ∧ 0 ≤ t.col ∧ t.col < cols ∧
      matrix t.row t.col = t.value := by
  rw [tripletsOf_convertToSparse, mem_cells] at ht
  obtain ⟨h1, h2, h3, h4, h5, h6⟩ := ht
  exact ⟨by rw [h6]; exact h5, h1, h2, h3, h4, h6.symm⟩

/-- Instance of C2 on the matrix `[[0, 5], [3, 0]]` and its triplet `{1, 0, 3.0}`. -/
theorem convertToSparse_triplet_sound_witness :
    (⟨1, 0, f3⟩ : SparseMatrix)
        ∈ tripletsOf (convertToSparse (ofRows [[f0, f5], [f3, f0]]) 2 2 []) ∧
      (f3.ne0 = true ∧ (0 : Int) ≤ 1 ∧ (1 : Int) < 2 ∧ (0 : Int) ≤ 0 ∧ (0 : Int) < 2 ∧
        ofRows [[f0, f5], [f3, f0]] 1 0 = f3) :=
  ⟨by decide,
    convertToSparse_triplet_sound (ofRows [[f0, f5], [f3, f0]]) 2 2 [] ⟨1, 0, f3⟩
      (by decide)⟩

/-- C3: every cell `(i, j)` of the `rows × cols` block with `matrix[i][j] != 0` occurs
exactly once, as the triplet `{i, j, matrix[i][j]}`, in the sequence produced by
`convertToSparse`. -/
theorem convertToSparse_cell_occurs_once (matrix : Int → Int → F32) (rows cols : Int)
    (sparse : List SparseMatrix) (i j : Int) (hi0 : 0 ≤ i) (hi : i < rows) (hj0 : 0 ≤ j)
    (hj : j < cols) (hne : (matrix i j).ne0 = true) :
    (tripletsOf (convertToSparse matrix rows cols sparse)).count ⟨i, j, matrix i j⟩ = 1 := by
  rw [tripletsOf_convertToSparse]
  apply List.count_eq_one_of_mem (cells_nodup matrix rows cols)
  rw [mem_cells]
  exact ⟨hi0, hi, hj0, hj, hne, rfl⟩

/-- Instance of C3 on the matrix `[[0, 5], [3, 0]]` at cell `(0, 1)`. -/
theorem convertToSparse_cell_occurs_once_witness :
    (ofRows [[f0, f5], [f3, f0]] 0 1).ne0 = true ∧
      (tripletsOf (convertToSparse (ofRows [[f0, f5], [f3, f0]]) 2 2 [])).count
        ⟨0, 1, ofRows [[f0, f5], [f3, f0]] 0 1⟩ = 1 :=
  ⟨by decide,
    convertToSparse_cell_occurs_once (ofRows [[f0, f5], [f3, f0]]) 2 2 [] 0 1
      (by decide) (by decide) (by decide) (by decide) (by decide)⟩

/-- C4: the sequence produced by `convertToSparse` is in row-major order: for positions
`a < b`, the entry at `a` has a smaller row than the entry at `b`, or the same row and a
smaller column. -/
theorem convertToSparse_row_major (matrix : Int → Int → F32) (rows cols : Int)
    (sparse : List SparseMatrix) (a b : Nat) (x y : SparseMatrix) (hab : a < b)
    (hx : (tripletsOf (convertToSparse matrix rows cols sparse))[a]? = some x)
    (hy : (tripletsOf (convertToSparse matrix rows cols sparse))[b]? = some y) :
    x.row < y.row ∨ (x.row = y.row ∧ x.col < y.col) := by
  rw [tripletsOf_convertToSparse] at hx hy
  obtain ⟨ha, rfl⟩ := List.getElem?_eq_some_iff.1 hx
  obtain ⟨hb, rfl⟩ := List.getElem?_eq_some_iff.1 hy
  exact List.pairwise_iff_getElem.1 (cells_pairwise matrix rows cols) a b ha hb hab

/-- Instance of C4 on the matrix `[[0, 5], [3, 0]]` at positions 0 and 1. -/
theorem convertToSparse_row_major_witness :
    (tripletsOf (convertToSparse (ofRows [[f0, f5], [f3, f0]]) 2 2 []))[0]?
        = some ⟨0, 1, f5⟩ ∧
      (tripletsOf (convertToSparse (ofRows [[f0, f5], [f3, f0]]) 2 2 []))[1]?
        = some ⟨1, 0, f3⟩ ∧
      ((⟨0, 1, f5⟩ : SparseMatrix).row < (⟨1, 0, f3⟩ : SparseMatrix).row ∨
        ((⟨0, 1, f5⟩ : SparseMatrix).row = (⟨1, 0, f3⟩ : SparseMatrix).row ∧
          (⟨0, 1, f5⟩ : SparseMatrix).col < (⟨1, 0, f3⟩ : SparseMatrix).col)) :=
  ⟨by decide, by decide,
    convertToSparse_row_major (ofRows [[f0, f5], [f3, f0]]) 2 2 [] 0 1 ⟨0, 1, f5⟩
      ⟨1, 0, f3⟩ (by decide) (by decide) (by decide)⟩

/-- C5: for a triplet sequence `T` of length `count`, `transposeSparse(T, count)` returns a
block whose entry at every position `i < count` is `{T[i].col, T[i].row, T[i].value}`: a
positional row/column swap, whatever the order of `T`. -/
theorem transposeSparse_positional (T : List SparseMatrix) :
    ∃ out, transposeSparse T (T.length : Int) = some out ∧
      ∀ (i : Nat) (hi : i < T.length),
        out[i]? = some ⟨T[i].col, T[i].row, T[i].value⟩ := by
  refine ⟨T.map swapRC, transposeSparse_eq T, ?_⟩
  intro i hi
  rw [List.getElem?_map, List.getElem?_eq_getElem hi]
  rfl

/-- Instance of C5 on an unsorted two-entry sequence, at position 1. -/
theorem transposeSparse_positional_witness :
    ∃ out, transposeSparse [⟨2, 0, f3⟩, ⟨0, 1, f5⟩] 2 = some out ∧
      out[1]? = some ⟨1, 0, f5⟩ := by
  obtain ⟨out, h1, h2⟩ := transposeSparse_positional [⟨2, 0, f3⟩, ⟨0, 1, f5⟩]
  exact ⟨out, h1, h2 1 (by decide)⟩

/-- C6: `transposeSparse` applied to a triplet sequence `T` (with its length as `count`)
returns a sequence of the same length as `T`. -/
theorem transposeSparse_length (T : List SparseMatrix) :
    ∃ out, transposeSparse T (T.length : Int) = some out ∧ out.length = T.length :=
  ⟨T.map swapRC, transposeSparse_eq T, List.length_map T swapRC⟩

/-- C7: transposing twice gives back the original sequence: `transposeSparse` applied to
the result of `transposeSparse` on `T` returns exactly `T`, entry by entry in order. -/
theorem transposeSparse_twice (T : List SparseMatrix) :
    ∃ T1, transposeSparse T (T.length : Int) = some T1 ∧
      transposeSparse T1 (T1.length : Int) = some T := by
  refine ⟨T.map swapRC, transposeSparse_eq T, ?_⟩
  rw [transposeSparse_eq, List.map_map]
  have : swapRC ∘ swapRC = id := funext swapRC_swapRC
  rw [this, List.map_id]

/-- C8: with `Mt[j][i] = M[i][j]` the transposed `cols × rows` matrix, `transposeSparse`
applied (as in `main`) to the block and count that `convertToSparse` returned for `M`
yields a permutation of the triplet sequence `convertToSparse` produces for `Mt`. -/
theorem transposeSparse_represents_transpose (matrix : Int → Int → F32) (rows cols : Int)
    (sparse sparse1 : List SparseMatrix) :
    ∃ out,
      transposeSparse (convertToSparse matrix rows cols sparse).2
          (convertToSparse matrix rows cols sparse).1 = some out ∧
        out.Perm
          (tripletsOf (convertToSparse (fun j i => matrix i j) cols rows sparse1)) := by
  refine ⟨(cells matrix rows cols).map swapRC, ?_, ?_⟩
  · rw [convertToSparse_eq]
    have hle : (cells matrix rows cols).length
        ≤ (stored sparse (cells matrix rows cols)).2.length := by
      unfold stored
      by_cases h : cells matrix rows cols = []
      · simp [h]
      · simp [h]
    have h := transposeSparse_take (stored sparse (cells matrix rows cols)).2
      (cells matrix rows cols).length hle
    have ht := tripletsOf_stored sparse (cells matrix rows cols)
    unfold tripletsOf at ht
    simp only [stored, Int.toNat_ofNat] at ht h ⊢
    rw [h, ht]
  · rw [tripletsOf_convertToSparse]
    apply (List.perm_ext_iff_of_nodup
      ((cells_nodup matrix rows cols).map swapRC_injective) (cells_nodup _ cols rows)).2
    intro t
    exact mem_map_swapRC_cells matrix rows cols t

/-- C9: `convertToSparse` returns count 0 and the empty sequence when `rows = 0` or
`cols = 0`, and when every cell of the block compares equal to zero; `transposeSparse`
with count 0 (in particular on the empty sequence) returns the empty sequence. -/
theorem empty_input_handling (matrix : Int → Int → F32) (rows cols : Int)
    (sparse : List SparseMatrix) :
    (rows = 0 ∨ cols = 0 →
        (convertToSparse matrix rows cols sparse).1 = 0 ∧
          tripletsOf (convertToSparse matrix rows cols sparse) = []) ∧
      ((∀ i j, 0 ≤ i → i < rows → 0 ≤ j → j < cols → (matrix i j).ne0 = false) →
        (convertToSparse matrix rows cols sparse).1 = 0 ∧
          tripletsOf (convertToSparse matrix rows cols sparse) = []) ∧
      transposeSparse [] 0 = some [] ∧ transposeSparse sparse 0 = some [] := by
  have key : cells matrix rows cols = [] →
      (convertToSparse matrix rows cols sparse).1 = 0 ∧
        tripletsOf (convertToSparse matrix rows cols sparse) = [] := by
    intro h
    rw [tripletsOf_convertToSparse, convertToSparse_eq, h]
    exact ⟨rfl, rfl⟩
  refine ⟨fun h => key ?_, fun h => key ?_, rfl, rfl⟩
  · apply cells_eq_nil_of_neg
    omega
  · rw [List.eq_nil_iff_forall_not_mem]
    intro t ht
    rw [mem_cells] at ht
    obtain ⟨h1, h2, h3, h4, h5, _⟩ := ht
    rw [h t.row t.col h1 h2 h3 h4] at h5
    cases h5

/-- Instance of C9 on the `0 × 0` matrix and on the all-zero `3 × 3` matrix. -/
theorem empty_input_handling_witness :
    ((convertToSparse (ofRows []) 0 0 []).1 = 0 ∧
        tripletsOf (convertToSparse (ofRows []) 0 0 []) = []) ∧
      ((convertToSparse (fun _ _ => f0) 3 3 []).1 = 0 ∧
        tripletsOf (convertToSparse (fun _ _ => f0) 3 3 []) = []) :=
  ⟨(empty_input_handling (ofRows []) 0 0 []).1 (Or.inl rfl),
    (empty_input_handling (fun _ _ => f0) 3 3 []).2.1 (fun _ _ _ _ _ _ => rfl)⟩

/-- C10, as stated, fails: with `rows = -1` the call returns normally, with count 0 and the
entry block untouched, exactly the result of a valid call on an all-zero `1 × 2` matrix;
and with a `2 × 2` storage declared as `1 × 1` it returns the one triplet of cell `(0, 0)`.
No failure is reported in either case. -/
theorem convertToSparse_invalid_dimension_returns :
    convertToSparse (ofRows [[f5, f3]]) (-1) 2 [] = (0, []) ∧
      convertToSparse (ofRows [[f5, f3]]) (-1) 2 []
        = convertToSparse (fun _ _ => f0) 1 2 [] ∧
      convertToSparse (ofRows [[f5, f3], [f3, f5]]) 1 1 [] = (1, [⟨0, 0, f5⟩]) := by
  decide

/-- C10, amended: `convertToSparse` validates nothing and has no error result.  When `rows`
or `cols` is negative it returns count 0 and leaves the block untouched (the empty
sequence); and its result depends only on the cells `(i, j)` with `0 ≤ i < rows`,
`0 ≤ j < cols`, so storage beyond the declared block is never examined. -/
theorem convertToSparse_no_dimension_check (matrix matrix1 : Int → Int → F32)
    (rows cols : Int) (sparse : List SparseMatrix) :
    (rows < 0 ∨ cols < 0 →
        convertToSparse matrix rows cols sparse = (0, sparse) ∧
          tripletsOf (convertToSparse matrix rows cols sparse) = []) ∧
      ((∀ i j, 0 ≤ i → i < rows → 0 ≤ j → j < cols → matrix1 i j = matrix i j) →
        convertToSparse matrix1 rows cols sparse
          = convertToSparse matrix rows cols sparse) := by
  constructor
  · intro h
    have hc : cells matrix rows cols = [] := cells_eq_nil_of_neg matrix rows cols (by omega)
    rw [tripletsOf_convertToSparse, convertToSparse_eq, hc]
    exact ⟨rfl, rfl⟩
  · intro h
    rw [convertToSparse_eq, convertToSparse_eq, cells_congr matrix matrix1 rows cols h]

/-- Instance of the amended C10: `rows = -1` with a non-empty entry block, and a `2 × 2` storage
declared as `1 × 1`. -/
theorem convertToSparse_no_dimension_check_witness :
    (((-1 : Int) < 0 ∨ (2 : Int) < 0) ∧
        convertToSparse (ofRows [[f5, f3]]) (-1) 2 [⟨7, 7, f3⟩] = (0, [⟨7, 7, f3⟩]) ∧
          tripletsOf (convertToSparse (ofRows [[f5, f3]]) (-1) 2 [⟨7, 7, f3⟩]) = []) ∧
      convertToSparse (ofRows [[f5, f3], [f3, f5]]) 1 1 []
        = convertToSparse (ofRows [[f5]]) 1 1 [] :=
  ⟨⟨by decide,
      (convertToSparse_no_dimension_check (ofRows [[f5, f3]]) (ofRows [[f5, f3]]) (-1) 2
        [⟨7, 7, f3⟩]).1 (by decide)⟩,
    (convertToSparse_no_dimension_check (ofRows [[f5]]) (ofRows [[f5, f3], [f3, f5]]) 1 1
      []).2 (by
        intro i j h1 h2 h3 h4
        have hi : i = 0 := by omega
        have hj : j = 0 := by omega
        subst hi hj
        rfl)⟩

theorem transposeSparse_convertToSparse (matrix : Int → Int → F32) (rows cols : Int)
    (sparse : List SparseMatrix) :
    transposeSparse (convertToSparse matrix rows cols sparse).2
        (convertToSparse matrix rows cols sparse).1
      = some ((cells matrix rows cols).map swapRC) := by
  rw [convertToSparse_eq]
  have hle : (cells matrix rows cols).length
      ≤ (stored sparse (cells matrix rows cols)).2.length := by
    unfold stored
    by_cases h : cells matrix rows cols = []
    · simp [h]
    · simp [h]
  have h := transposeSparse_take (stored sparse (cells matrix rows cols)).2
    (cells matrix rows cols).length hle
  have ht := tripletsOf_stored sparse (cells matrix rows cols)
  unfold tripletsOf at ht
  simp only [stored, Int.toNat_ofNat] at ht h ⊢
  rw [h, ht]

/-- C11: for `M = [[0, 5], [3, 0]]`, `convertToSparse` returns count 2 and the sequence
`[{0, 1, 5.0}, {1, 0, 3.0}]`, and `transposeSparse` of that returns
`[{1, 0, 5.0}, {0, 1, 3.0}]`; for the all-zero `3 × 3` matrix `convertToSparse` returns
count 0 and the empty sequence, and `transposeSparse` of it returns the empty sequence. -/
theorem concrete_scenarios :
    convertToSparse (ofRows [[f0, f5], [f3, f0]]) 2 2 []
        = (2, [⟨0, 1, f5⟩, ⟨1, 0, f3⟩]) ∧
      transposeSparse [⟨0, 1, f5⟩, ⟨1, 0, f3⟩] 2 = some [⟨1, 0, f5⟩, ⟨0, 1, f3⟩] ∧
      convertToSparse (ofRows [[f0, f0, f0], [f0, f0, f0], [f0, f0, f0]]) 3 3 [] = (0, []) ∧
      tripletsOf (convertToSparse (ofRows [[f0, f0, f0], [f0, f0, f0], [f0, f0, f0]]) 3 3 [])
        = [] ∧
      transposeSparse [] 0 = some [] := by
  decide

/-- C12: the transposer does not canonicalize: for some matrix (here `[[0, 5], [3, 0]]`)
the sequence `transposeSparse` returns for the output of `convertToSparse` is not in
row-major order, and it differs from the sequence `convertToSparse` produces for the
transposed matrix. -/
theorem transposeSparse_not_canonical :
    ∃ (matrix : Int → Int → F32) (rows cols : Int) (out : List SparseMatrix),
      transposeSparse (convertToSparse matrix rows cols []).2
          (convertToSparse matrix rows cols []).1 = some out ∧
        ¬ (∀ (a b : Nat) (x y : SparseMatrix), a < b → out[a]? = some x →
            out[b]? = some y → x.row < y.row ∨ (x.row = y.row ∧ x.col < y.col)) ∧
        out ≠ tripletsOf (convertToSparse (fun j i => matrix i j) cols rows []) := by
  refine ⟨ofRows [[f0, f5], [f3, f0]], 2, 2, [⟨1, 0, f5⟩, ⟨0, 1, f3⟩], by decide, ?_,
    by decide⟩
  intro h
  have := h 0 1 ⟨1, 0, f5⟩ ⟨0, 1, f3⟩ (by decide) rfl rfl
  simp at this

/-- C17: the sequence `transposeSparse` returns for the output of `convertToSparse` is
ordered by ascending `col`, then ascending `row` (positions `a < b`), and so no two
positions carry the same `(row, col)` pair. -/
theorem transposeSparse_column_major (matrix : Int → Int → F32) (rows cols : Int)
    (sparse : List SparseMatrix) :
    ∃ out,
      transposeSparse (convertToSparse matrix rows cols sparse).2
          (convertToSparse matrix rows cols sparse).1 = some out ∧
        (∀ (a b : Nat) (x y : SparseMatrix), a < b → out[a]? = some x →
          out[b]? = some y → x.col < y.col ∨ (x.col = y.col ∧ x.row < y.row)) ∧
        (∀ (a b : Nat) (x y : SparseMatrix), a ≠ b → out[a]? = some x →
          out[b]? = some y → (x.row, x.col) ≠ (y.row, y.col)) := by
  have hord : ∀ (a b : Nat) (x y : SparseMatrix), a < b →
      ((cells matrix rows cols).map swapRC)[a]? = some x →
      ((cells matrix rows cols).map swapRC)[b]? = some y →
      x.col < y.col ∨ (x.col = y.col ∧ x.row < y.row) := by
    intro a b x y hab hx hy
    rw [List.getElem?_map, Option.map_eq_some'] at hx hy
    obtain ⟨x0, hx0, rfl⟩ := hx
    obtain ⟨y0, hy0, rfl⟩ := hy
    obtain ⟨ha, rfl⟩ := List.getElem?_eq_some_iff.1 hx0
    obtain ⟨hb, rfl⟩ := List.getElem?_eq_some_iff.1 hy0
    exact List.pairwise_iff_getElem.1 (cells_pairwise matrix rows cols) a b ha hb hab
  refine ⟨(cells matrix rows cols).map swapRC,
    transposeSparse_convertToSparse matrix rows cols sparse, hord, ?_⟩
  · intro a b x y hab hx hy heq
    simp only [Prod.mk.injEq] at heq
    rcases Nat.lt_or_gt_of_ne hab with h | h
    · have := hord a b x y h hx hy
      omega
    · have := hord b a y x h hy hx
      omega

/-- Instance of C17 on the matrix `[[0, 5], [3, 0]]`, whose transposed sequence is
`[{1, 0, 5.0}, {0, 1, 3.0}]`, at positions 0 and 1. -/
theorem transposeSparse_column_major_witness :
    transposeSparse (convertToSparse (ofRows [[f0, f5], [f3, f0]]) 2 2 []).2
        (convertToSparse (ofRows [[f0, f5], [f3, f0]]) 2 2 []).1
        = some [⟨1, 0, f5⟩, ⟨0, 1, f3⟩] ∧
      ((⟨1, 0, f5⟩ : SparseMatrix).col < (⟨0, 1, f3⟩ : SparseMatrix).col ∨
        ((⟨1, 0, f5⟩ : SparseMatrix).col = (⟨0, 1, f3⟩ : SparseMatrix).col ∧
          (⟨1, 0, f5⟩ : SparseMatrix).row < (⟨0, 1, f3⟩ : SparseMatrix).row)) ∧
      ((⟨1, 0, f5⟩ : SparseMatrix).row, (⟨1, 0, f5⟩ : SparseMatrix).col)
        ≠ ((⟨0, 1, f3⟩ : SparseMatrix).row, (⟨0, 1, f3⟩ : SparseMatrix).col) := by
  have hrun : transposeSparse (convertToSparse (ofRows [[f0, f5], [f3, f0]]) 2 2 []).2
      (convertToSparse (ofRows [[f0, f5], [f3, f0]]) 2 2 []).1
      = some [⟨1, 0, f5⟩, ⟨0, 1, f3⟩] := by decide
  obtain ⟨out, h, hord, hnd⟩ :=
    transposeSparse_column_major (ofRows [[f0, f5], [f3, f0]]) 2 2 []
  rw [hrun] at h
  cases h
  exact ⟨hrun, hord 0 1 _ _ (by decide) rfl rfl, hnd 0 1 _ _ (by decide) rfl rfl⟩

/-! ## Bounds on what `generateRandomMatrix` leaves behind -/

theorem ne0_setCell_f0 (m : Int → Int → F32) (i j a b : Int) :
    (setCell m i j f0 a b).ne0 = false ↔ (a = i ∧ b = j) ∨ (m a b).ne0 = false := by
  unfold setCell
  by_cases h : a = i ∧ b = j
  · simp only [h, and_self, if_true, true_or, iff_true]
    rfl
  · simp only [h, if_false, false_or]

theorem init_row (i : Int) (js : List Nat) (m : Int → Int → F32) (a b : Int) :
    (js.foldl (fun m (j : Nat) => setCell m i j f0) m a b).ne0 = false ↔
      (a = i ∧ ∃ j ∈ js, b = (j : Int)) ∨ (m a b).ne0 = false := by
  induction js generalizing m with
  | nil => simp
  | cons j js ih =>
    rw [List.foldl_cons, ih, ne0_setCell_f0]
    simp only [List.mem_cons, exists_eq_or_imp]
    generalize (∃ x ∈ js, b = (x : Int)) = Q
    tauto

theorem init_rows (cols : Int) (is : List Nat) (m : Int → Int → F32) (a b : Int) :
    (is.foldl (fun m (i : Nat) => forLoop cols (fun j m => setCell m i j f0) m) m a b).ne0
        = false ↔
      ((∃ i ∈ is, a = (i : Int)) ∧ ∃ j ∈ List.range cols.toNat, b = (j : Int)) ∨
        (m a b).ne0 = false := by
  induction is generalizing m with
  | nil => simp
  | cons i is ih =>
    rw [List.foldl_cons, ih]
    unfold forLoop
    rw [init_row]
    simp only [List.mem_cons, exists_eq_or_imp]
    generalize (∃ x ∈ is, a = (x : Int)) = Q
    generalize (∃ x ∈ List.range cols.toNat, b = (x : Int)) = R
    tauto

theorem nonZeroCells_init (matrix : Int → Int → F32) (rows cols : Int) :
    nonZeroCells
      (forLoop rows (fun i m => forLoop cols (fun j m => setCell m i j f0) m) matrix)
      rows cols = ∅ := by
  unfold nonZeroCells
  rw [Finset.filter_eq_empty_iff]
  rintro ⟨a, b⟩ hp
  simp only [Finset.mem_product, Finset.mem_Ico] at hp
  have h : (forLoop rows (fun i m => forLoop cols (fun j m => setCell m i j f0) m) matrix
      a b).ne0 = false :=
    (init_rows cols (List.range rows.toNat) matrix a b).2
      (Or.inl ⟨⟨a.toNat, by rw [List.mem_range]; omega, by omega⟩,
        ⟨b.toNat, by rw [List.mem_range]; omega, by omega⟩⟩)
  simp only [h]
  exact Bool.false_ne_true

theorem nonZeroCells_setCell_card (m : Int → Int → F32) (rows cols i j : Int) (v : F32) :
    (nonZeroCells (setCell m i j v) rows cols).card ≤ (nonZeroCells m rows cols).card + 1 := by
  refine le_trans (Finset.card_le_card ?_) (Finset.card_insert_le (i, j) _)
  intro p hp
  unfold nonZeroCells at hp ⊢
  rw [Finset.mem_filter] at hp
  rw [Finset.mem_insert, Finset.mem_filter]
  by_cases h : p = (i, j)
  · exact Or.inl h
  · refine Or.inr ⟨hp.1, ?_⟩
    have hne : ¬ (p.1 = i ∧ p.2 = j) := fun hh => h (Prod.ext hh.1 hh.2)
    have := hp.2
    unfold setCell at this
    rwa [if_neg hne] at this

theorem fill_loop_card (fuel : Nat) (rand : Nat → Nat) (rows cols : Int) (is : List Nat)
    (s s1 : (Int → Int → F32) × Nat)
    (h : is.foldlM (fun (s : (Int → Int → F32) × Nat) (_ : Nat) =>
        (do
          let m := s.1
          let n := s.2
          let randRow := Int.tmod (rand n) rows
          let randCol := Int.tmod (rand (n + 1)) cols
          let randValue := F32.divTen (rand (n + 2) % 1000)
          let (randRow, randCol, n) ←
            pickZeroCell rand m rows cols fuel (randRow, randCol, n + 3)
          pure (setCell m randRow randCol randValue, n) :
            Option ((Int → Int → F32) × Nat))) s = some s1) :
    (nonZeroCells s1.1 rows cols).card ≤ (nonZeroCells s.1 rows cols).card + is.length := by
  induction is generalizing s with
  | nil =>
    simp only [List.foldlM_nil, Option.pure_def, Option.some.injEq] at h
    subst h
    simp
  | cons i is ih =>
    rw [List.foldlM_cons] at h
    simp only [Option.bind_eq_bind, Option.bind_eq_some] at h
    obtain ⟨s2, hs2, hrest⟩ := h
    obtain ⟨⟨rr, rc, n⟩, _, hw⟩ := hs2
    simp only [Option.pure_def, Option.some.injEq] at hw
    have h2 := ih s2 hrest
    have h1 : (nonZeroCells s2.1 rows cols).card ≤ (nonZeroCells s.1 rows cols).card + 1 := by
      rw [← hw]
      exact nonZeroCells_setCell_card s.1 rows cols rr rc _
    rw [List.length_cons]
    omega

theorem zeroCells_card (m : Int → Int → F32) (rows cols : Int) :
    (zeroCells m rows cols).card + (nonZeroCells m rows cols).card
      = rows.toNat * cols.toNat := by
  unfold zeroCells nonZeroCells
  have h := Finset.filter_card_add_filter_neg_card_eq_card
    (s := Finset.Ico (0 : Int) rows ×ˢ Finset.Ico (0 : Int) cols)
    (fun p => (m p.1 p.2).ne0 = true)
  simp only [Bool.not_eq_true, Finset.card_product, Int.card_Ico, sub_zero] at h
  omega

/-- What does hold of `generateRandomMatrix` for `rows, cols ≥ 1` whenever it returns: at
most `⌊0.4 * rows * cols⌋` cells of the block are non-zero, and at least 60% are zero. -/
theorem generateRandomMatrix_bounds (fuel : Nat) (rand : Nat → Nat)
    (matrix m : Int → Int → F32) (rows cols : Int) (hr : 1 ≤ rows) (hc : 1 ≤ cols)
    (h : generateRandomMatrix fuel rand matrix rows cols = some m) :
    ((nonZeroCells m rows cols).card : Int) ≤ 2 * (rows * cols) / 5 ∧
      60 * (rows * cols) ≤ 100 * ((zeroCells m rows cols).card : Int) := by
  unfold generateRandomMatrix forLoopM at h
  simp only [Option.map_eq_some'] at h
  obtain ⟨s1, hs1, rfl⟩ := h
  have hcard := fill_loop_card fuel rand rows cols _ _ s1 hs1
  rw [nonZeroCells_init, Finset.card_empty, List.length_range, Nat.zero_add] at hcard
  have hz := zeroCells_card s1.1 rows cols
  have hpos : 0 ≤ rows * cols := by positivity
  have htd : Int.tdiv (2 * (rows * cols)) 5 = 2 * (rows * cols) / 5 :=
    Int.tdiv_eq_ediv (by omega) (by decide)
  rw [htd] at hcard
  have hprod : ((rows.toNat * cols.toNat : Nat) : Int) = rows * cols := by
    rw [Nat.cast_mul, Int.toNat_of_nonneg (by omega), Int.toNat_of_nonneg (by omega)]
  have hq : 0 ≤ 2 * (rows * cols) / 5 := Int.ediv_nonneg (by omega) (by decide)
  have hle : ((nonZeroCells s1.1 rows cols).card : Int) ≤ 2 * (rows * cols) / 5 := by
    have := Int.toNat_of_nonneg hq
    omega
  refine ⟨hle, ?_⟩
  have hz1 : ((zeroCells s1.1 rows cols).card : Int)
      + ((nonZeroCells s1.1 rows cols).card : Int) = rows * cols := by
    rw [← hprod, ← hz]
    push_cast
    rfl
  generalize rows * cols = t at *
  omega

/-- C14 fails on a `1 × 5` matrix: the loop runs `(int)(5 * 0.4) = 2` times and, with
`rand()` results `0, 0, 5` (cell `(0, 0)`, value `0.5`), `0, 0, 7` (cell `(0, 0)` again,
not zero any more) and `0, 1` (cell `(0, 1)`, which receives `0.7`), two cells end up
non-zero and three zero: exactly 60% zeros, not more. -/
theorem generateRandomMatrix_exactly_sixty_percent :
    ∃ m, generateRandomMatrix 4 (randOf [0, 0, 5, 0, 0, 7, 0, 1]) (fun _ _ => f3) 1 5
        = some m ∧
      (List.range 5).map (fun (j : Nat) => m 0 j)
        = [F32.divTen 5, F32.divTen 7, f0, f0, f0] ∧
      (nonZeroCells m 1 5).card = 2 ∧ (zeroCells m 1 5).card = 3 ∧
      ¬ (60 * (1 * 5) < 100 * (zeroCells m 1 5).card) := by
  refine ⟨_, rfl, ?_, ?_, ?_, ?_⟩ <;> decide

end Sparse

namespace SparseMatrixC

theorem countNonZero_entry (matrix : Int → Int → Int) (r c : Int) (s : State)
    (hr : 0 < r) :
    countNonZero matrix r c s = countNonZero matrix r c { s with i := 0, j := 0 } := by
  obtain ⟨n, hn⟩ : ∃ n, r.toNat = n + 1 := ⟨r.toNat - 1, by omega⟩
  unfold countNonZero
  rw [hn]
  have hd : decide ((0 : Int) < r) = true := decide_eq_true hr
  simp only [whileLoop, hd, pure_bind, if_true]

theorem tripletPhase_entry (matrix : Int → Int → Int) (r c i0 j0 : Int) (hr : 0 < r) :
    tripletPhase r c matrix i0 j0 = tripletPhase r c matrix 0 0 := by
  unfold tripletPhase
  simp only [bind_assoc, pure_bind]
  rw [countNonZero_entry matrix r c _ hr]

theorem main_entry (matrix : Int → Int → Int) (r c i0 j0 : Int) (hr : 0 < r) :
    main r c matrix i0 j0 = main r c matrix 0 0 := by
  unfold main
  rw [tripletPhase_entry matrix r c i0 j0 hr]

/-- C13 fails on the `1 × 2` matrix `[[0, 5]]` (`u = 1`, triplet rows `(1, 2, 1)` and
`(0, 1, 5)`): the transpose loop repeats its `u` writes once per column, so beside row 0
it also writes row 1 of `transpose`, and `k` ends at 2. -/
theorem main_transpose_writes_beyond_u (i0 j0 : Int) :
    (main 1 2 (ofRows [[0, 5]]) i0 j0).map (fun s => (s.u, s.k, s.triplet, s.transpose))
      = Except.ok (1, 2, [[1, 2, 1], [0, 1, 5]], [[1, 0, 5], [1, 0, 5]]) := by
  rw [main_entry _ 1 2 i0 j0 (by decide)]
  decide

/-- C15 fails on the `2 × 2` matrix `[[0, 5], [3, 0]]`: the triplet table is built with
`u = 2`, `transpose` gets `u + 1 = 3` rows, and the transpose loop, which performs
`triplet[0][1] * u = 4` writes, faults on an access outside the table. -/
theorem main_transpose_out_of_bounds (i0 j0 : Int) :
    (tripletPhase 2 2 (ofRows [[0, 5], [3, 0]]) i0 j0).map (fun s => (s.u, s.triplet))
        = Except.ok (2, [[2, 2, 2], [0, 1, 5], [1, 0, 3]]) ∧
      main 2 2 (ofRows [[0, 5], [3, 0]]) i0 j0 = Except.error Fault.outOfBounds := by
  rw [main_entry _ 2 2 i0 j0 (by decide), tripletPhase_entry _ 2 2 i0 j0 (by decide)]
  decide

/-- C16 fails for `r = 0`, `c = 2`: no loop body runs, so `j` still holds its
indeterminate entry value `j0` when `triplet[0][1] = j` is executed, and the header row is
`(0, j0, 0)` rather than `(0, 2, 0)`. -/
theorem tripletPhase_header_zero_rows (i0 j0 : Int) :
    (tripletPhase 0 2 (ofRows []) i0 j0).map (fun s => (s.u, s.triplet))
      = Except.ok (0, [[0, j0, 0]]) := by
  rfl

end SparseMatrixC
